import Mathlib

/-!
# kvfs: a key-value store exposed as a filesystem

A shallow embedding of `fs/fs.go` and `fs/file.go` of `cpuguy83/kvfs`.

* A Go `string` is a sequence of bytes; it is embedded as `List Char`, one
  `Char` per byte.  The code only ever compares bytes against `/` and `.`.
* A Go `[]byte` is embedded as `List Byte`.
* The key-value store (`libkv`), the path helpers of Go's standard library and
  the `go-fuse` result types are collaborators of the program; they are
  embedded from their contract where the program relies on them.
* A Go run-time panic (nil dereference, slice bounds out of range) is the
  result `none` of the operations that may raise one.
-/

namespace Kvfs

/-! ## Strings and bytes -/

/-- Go `string`: a sequence of bytes. -/
abbrev GoString := List Char

/-- One byte of a Go `[]byte`. -/
abbrev Byte := Fin 256

/-- Go `strings.HasSuffix(s, suffix)`:
`len(s) >= len(suffix) && s[len(s)-len(suffix):] == suffix`. -/
def HasSuffix (s suffix : GoString) : Bool :=
  decide (suffix.length ≤ s.length) && (s.drop (s.length - suffix.length) == suffix)

/-- Go `strings.LastIndex(s, sep)` for a one-byte separator `sep`: the index
of the last occurrence of `sep` in `s`, or `-1` when there is none. -/
def LastIndex : GoString → Char → Int
  | [], _ => -1
  | c :: cs, sep =>
    let i := LastIndex cs sep
    if 0 ≤ i then i + 1 else if c = sep then 0 else -1

/-- Go `path.Split`: `i := strings.LastIndex(path, "/")`, then
`path[:i+1], path[i+1:]`. -/
def Split (path : GoString) : GoString × GoString :=
  let i := LastIndex path '/'
  (path.take (i + 1).toNat, path.drop (i + 1).toNat)

/-- The inner loop of the `..` case of `path.Clean`, entered with the write
index already decremented once:
`for out.w > dotdot && out.index(out.w) != '/' { out.w-- }`.
Returns the final write index. -/
def cleanBack (out : GoString) (dotdot : Nat) : Nat → Nat
  | 0 => 0
  | w + 1 =>
    if dotdot < w + 1 ∧ out.getD (w + 1) '/' ≠ '/' then cleanBack out dotdot w else w + 1

/-- The main loop `for r < n` of Go `path.Clean`.  `rest` is `path[r:]`, `out`
holds the `out.w` bytes written so far.  Every iteration consumes at least one
byte of `rest`, so `rest.length` units of fuel are enough. -/
def cleanLoop (rooted : Bool) : Nat → GoString → GoString → Nat → GoString
  | 0, _, out, _ => out
  | _ + 1, [], out, _ => out
  | fuel + 1, c :: rest, out, dotdot =>
    if c = '/' then
      -- empty path element
      cleanLoop rooted fuel rest out dotdot
    else if c = '.' ∧ (rest = [] ∨ rest.head? = some '/') then
      -- . element
      cleanLoop rooted fuel rest out dotdot
    else if c = '.' ∧ rest.head? = some '.' ∧
        (rest.tail = [] ∨ rest.tail.head? = some '/') then
      -- .. element: remove to last /
      if dotdot < out.length then
        cleanLoop rooted fuel rest.tail (out.take (cleanBack out dotdot (out.length - 1))) dotdot
      else if !rooted then
        -- cannot backtrack, but not rooted, so append .. element
        let out1 := if 0 < out.length then out ++ ['/'] else out
        let out2 := out1 ++ ['.', '.']
        cleanLoop rooted fuel rest.tail out2 out2.length
      else
        cleanLoop rooted fuel rest.tail out dotdot
    else
      -- real path element: add slash if needed, then copy the element
      let out1 :=
        if (rooted ∧ out.length ≠ 1) ∨ (¬ rooted ∧ out.length ≠ 0) then out ++ ['/'] else out
      let seg := (c :: rest).takeWhile (fun b => b ≠ '/')
      cleanLoop rooted fuel ((c :: rest).dropWhile (fun b => b ≠ '/')) (out1 ++ seg) dotdot

/-- Go `path.Clean`. -/
def Clean (path : GoString) : GoString :=
  if path = [] then ['.']
  else
    let rooted := path.head? = some '/'
    let out :=
      if rooted then
        cleanLoop true path.length path.tail ['/'] 1
      else
        cleanLoop false path.length path [] 0
    -- Turn empty string into "."
    if out = [] then ['.'] else out

/-- Go `path.Join`: the elements from the first non-empty one on are joined
with `/` and the result is cleaned; empty when every element is empty. -/
def Join (elem : List GoString) : GoString :=
  match elem.dropWhile (fun e => e = []) with
  | [] => []
  | es => Clean (List.intercalate ['/'] es)

/-! ## The key-value store (`libkv`) -/

/-- The errors of a store call: `store.ErrKeyNotFound`, or any other error
(connection lost, timeout, ...). -/
inductive StoreErr where
  | ErrKeyNotFound
  | ErrOther
  deriving DecidableEq, Repr

/-- Go `store.KVPair`.  `Value` is a Go slice: `Value` holds its `len(Value)`
bytes and `spare` the bytes of its backing array between `len(Value)` and
`cap(Value)`, which a reslice `Value[:off]` can reach. -/
structure KVPair where
  Key : GoString
  Value : List Byte
  spare : List Byte := []
  deriving DecidableEq, Repr

/-- Modelled from the spec: the external key-value store behind `store.Store`
(get, put, delete, deleteTree, list by prefix, "each returning a
not-found/error condition").  `data` holds the entries, at most one of them
visible per key (the first).  `faults` is the outcome the environment has
decided for the coming calls, one item per call: `some e` makes the call fail
with `e` and leave the entries alone, `none` (or an exhausted list) lets the
call run. -/
structure Store where
  data : List (GoString × List Byte) := []
  faults : List (Option StoreErr) := []
  deriving DecidableEq, Repr

/-- The entries without the one stored under `key`. -/
def eraseEntry (key : GoString) (data : List (GoString × List Byte)) :
    List (GoString × List Byte) :=
  data.filter (fun e => e.1 ≠ key)

/-- The entries with `value` stored under `key`, replacing what was there. -/
def insertEntry (key : GoString) (value : List Byte) (data : List (GoString × List Byte)) :
    List (GoString × List Byte) :=
  (key, value) :: eraseEntry key data

/-- The fault, if any, that the environment injects into the next store call. -/
def Store.nextFault (s : Store) : Option StoreErr :=
  s.faults.head?.join

/-- The store once the outcome of the current call has been consumed. -/
def Store.tick (s : Store) : Store :=
  { s with faults := s.faults.tail }

/-- Modelled from the spec: `get(key)`.  The pair stored under `key`, or
`ErrKeyNotFound`. -/
def Store.Get (s : Store) (key : GoString) : Except StoreErr KVPair × Store :=
  match s.nextFault with
  | some e => (Except.error e, s.tick)
  | none =>
    match s.data.lookup key with
    | some v => (Except.ok { Key := key, Value := v }, s.tick)
    | none => (Except.error StoreErr.ErrKeyNotFound, s.tick)

/-- Modelled from the spec: `put(key, value)`.  Creates or overwrites the
entry under `key`. -/
def Store.Put (s : Store) (key : GoString) (value : List Byte) : Except StoreErr Unit × Store :=
  match s.nextFault with
  | some e => (Except.error e, s.tick)
  | none =>
    (Except.ok (), { s.tick with data := insertEntry key value s.data })

/-- Modelled from the spec: `delete(key)`.  Removes the entry under `key`;
`ErrKeyNotFound` when there is none. -/
def Store.Delete (s : Store) (key : GoString) : Except StoreErr Unit × Store :=
  match s.nextFault with
  | some e => (Except.error e, s.tick)
  | none =>
    match s.data.lookup key with
    | some _ => (Except.ok (), { s.tick with data := eraseEntry key s.data })
    | none => (Except.error StoreErr.ErrKeyNotFound, s.tick)

/-- The entries of the store whose key starts with `pfx`. -/
def Store.under (s : Store) (pfx : GoString) : List (GoString × List Byte) :=
  s.data.filter (fun e => pfx.isPrefixOf e.1)

/-- Modelled from the spec: `deleteTree(prefix)`.  Removes every entry whose
key starts with the given string; `ErrKeyNotFound` when there is none. -/
def Store.DeleteTree (s : Store) (pfx : GoString) : Except StoreErr Unit × Store :=
  match s.nextFault with
  | some e => (Except.error e, s.tick)
  | none =>
    if s.under pfx = [] then (Except.error StoreErr.ErrKeyNotFound, s.tick)
    else (Except.ok (), { s.tick with data := s.data.filter (fun e => ! pfx.isPrefixOf e.1) })

/-- Modelled from the spec: `list(prefix)`, "a store query returning all keys
sharing a given prefix, with their values"; `ErrKeyNotFound` when no key has
the prefix. -/
def Store.List (s : Store) (pfx : GoString) : Except StoreErr (List KVPair) × Store :=
  match s.nextFault with
  | some e => (Except.error e, s.tick)
  | none =>
    if s.under pfx = [] then (Except.error StoreErr.ErrKeyNotFound, s.tick)
    else (Except.ok ((s.under pfx).map (fun e => { Key := e.1, Value := e.2 })), s.tick)

/-! ## `go-fuse` types -/

/-- Go `fuse.Status`, restricted to the values the program returns. -/
inductive Status where
  | OK
  | ENOENT
  | EIO
  deriving DecidableEq, Repr

/-- Go `fuse.S_IFDIR` (`syscall.S_IFDIR`, octal 040000). -/
def S_IFDIR : Nat := 0x4000

/-- Go `fuse.S_IFREG` (`syscall.S_IFREG`, octal 0100000). -/
def S_IFREG : Nat := 0x8000

/-- Go `fuse.DirEntry`. -/
structure DirEntry where
  Name : GoString
  Mode : Nat
  deriving DecidableEq, Repr

/-- The fields of Go `fuse.Attr` that the program sets; the others keep their
zero value. -/
structure Attr where
  Size : Nat := 0
  Atime : Nat := 0
  Mtime : Nat := 0
  Ctime : Nat := 0
  Atimensec : Nat := 0
  Mtimensec : Nat := 0
  Ctimensec : Nat := 0
  Mode : Nat := 0
  deriving DecidableEq, Repr

/-- The reading of the clock that `time.Now()` returns: `now.Unix()` and
`now.UnixNano()`, both `int64`. -/
structure Time where
  Unix : Int
  UnixNano : Int
  deriving DecidableEq, Repr

/-- Go conversion `uint64(x)` of an `int64`. -/
def toUint64 (x : Int) : Nat := (x % 2 ^ 64).toNat

/-- Go conversion `uint32(x)` of an `int64`. -/
def toUint32 (x : Int) : Nat := (x % 2 ^ 32).toNat

/-- Go `int64` addition: the sum wraps around in two's complement. -/
def addInt64 (a b : Int) : Int := (a + b + 2 ^ 63) % 2 ^ 64 - 2 ^ 63

/-- Go `fuse.ReadResultData(b)`: the read result that carries the slice `b`;
its size is `len(b)` and its bytes are `b`. -/
def ReadResultData (b : List Byte) : List Byte := b

/-! ## `fs/file.go` -/

/-- Go `type file struct`: the handle of an open file.  `kv` is a pointer and
may be nil; the `kvStore` field is the store, which the operations take as an
argument. -/
structure file where
  kv : Option KVPair
  deriving DecidableEq, Repr

/-- Go `newFile(s, kv)`. -/
def newFile (kv : Option KVPair) : file := { kv := kv }

/-- Go `(*file).Read(buf, offset)`.  The result is the read result and the
status; `none` is a panic. -/
def file.Read (f : file) (buf : List Byte) (offset : Int) : Option (List Byte × Status) :=
  match f.kv with
  | none => none
  | some kv =>
    -- end := int(offset) + len(buf); if end > len(f.kv.Value) { end = len(f.kv.Value) }
    let end0 := addInt64 offset buf.length
    let end1 : Int := if end0 > kv.Value.length then kv.Value.length else end0
    -- f.kv.Value[offset:end] panics unless 0 <= offset <= end
    if offset < 0 ∨ end1 < offset then none
    else
      let src := (kv.Value.take end1.toNat).drop offset.toNat
      -- copy(buf, src) overwrites the first min(len(buf), len(src)) bytes of buf
      let n := min buf.length src.length
      let buf1 := src.take n ++ buf.drop n
      some (ReadResultData buf1, Status.OK)

/-- Go `(*file).Write(data, off)`.  The result is the count and status
returned, the handle afterwards (the bytes of its snapshot's backing array may
have been overwritten in place) and the store afterwards; `none` is a panic. -/
def file.Write (f : file) (data : List Byte) (off : Int) (s : Store) :
    Option ((Nat × Status) × file × Store) :=
  match f.kv with
  | none => none
  | some kv =>
    let arr := kv.Value ++ kv.spare
    -- val := f.kv.Value[:off] panics unless 0 <= off <= cap(f.kv.Value)
    if off < 0 ∨ (arr.length : Int) < off then none
    else
      let o := off.toNat
      -- val = append(val, data...); copy(val[off:], data) rewrites the same bytes
      let val := arr.take o ++ data
      -- append writes into the backing array when the capacity suffices
      let arr1 := if o + data.length ≤ arr.length then
          arr.take o ++ data ++ arr.drop (o + data.length)
        else arr
      let f1 : file :=
        { kv := some { kv with Value := arr1.take kv.Value.length,
                               spare := arr1.drop kv.Value.length } }
      match s.Put kv.Key val with
      | (Except.error _, s1) => some ((0, Status.EIO), f1, s1)
      | (Except.ok _, s1) => some ((data.length % 2 ^ 32, Status.OK), f1, s1)

/-- Go `(*file).GetAttr(out)`: fills `out` and returns the status; `none` is a
panic.  The first statement, `logrus.Debugf("FGetAttr %s", f.kv.Key)`, reads
`f.kv.Key`, so a nil `f.kv` panics there and the test `f.kv == nil` further
down is never true. -/
def file.GetAttr (f : file) (out : Attr) (now : Time) : Option (Attr × Status) :=
  match f.kv with
  | none => none
  | some kv =>
    let out1 : Attr :=
      { out with
        Mtime := toUint64 now.Unix, Mtimensec := toUint32 now.UnixNano,
        Atime := toUint64 now.Unix, Atimensec := toUint32 now.UnixNano,
        Ctime := toUint64 now.Unix, Ctimensec := toUint32 now.UnixNano }
    if HasSuffix kv.Key ['/'] ∨ kv.Key = [] then
      some ({ out1 with Mode := S_IFDIR ||| 0o755 }, Status.OK)
    else if 0 < kv.Value.length then
      some ({ out1 with Mode := S_IFREG ||| 0o644, Size := kv.Value.length }, Status.OK)
    else some (out1, Status.OK)

/-! ## `fs/fs.go` -/

/-- Go `type FS struct`: the configured root; the `kvStore` field is the store,
which the operations take as an argument and return. -/
structure FS where
  root : GoString
  deriving DecidableEq, Repr

/-- Go `NewKVFS`, lines 36-43: the root kept in the `FS` for the option
`opts.Root`. -/
def rootOf (optsRoot : GoString) : GoString :=
  let root := if optsRoot ≠ [] ∧ optsRoot.head? = some '/' then optsRoot.drop 1 else optsRoot
  if ! HasSuffix root ['/'] then root ++ ['/'] else root

/-- Go `NewKVFS` on an established store connection: `none` when listing the
root fails. -/
def NewKVFS (optsRoot : GoString) (s : Store) : Option FS × Store :=
  let root := rootOf optsRoot
  match s.List root with
  | (Except.error _, s1) => (none, s1)
  | (Except.ok _, s1) => (some { root := root }, s1)

/-- Go `(*FS).Create`. -/
def FS.Create (_fs : FS) (name : GoString) (s : Store) : (Option file × Status) × Store :=
  match s.Put name [] with
  | (Except.error _, s1) => ((none, Status.ENOENT), s1)
  | (Except.ok _, s1) =>
    match s1.Get name with
    | (Except.error _, s2) => ((none, Status.EIO), s2)
    | (Except.ok kv, s2) => ((some (newFile (some kv)), Status.OK), s2)

/-- Go `(*FS).Open`. -/
def FS.Open (_fs : FS) (name : GoString) (s : Store) : (Option file × Status) × Store :=
  match s.Get name with
  | (Except.error _, s1) => ((none, Status.ENOENT), s1)
  | (Except.ok kv, s1) => ((some (newFile (some kv)), Status.OK), s1)

/-- The body of the second loop of `(*FS).OpenDir` for one listed key `eName`,
`name` being the joined directory name: `none` when the key is skipped
(`continue`), the entry appended otherwise. -/
def openDirEntry (name : GoString) (eName : GoString) : Option DirEntry :=
  let (dir, fi) := Split eName
  if dir = name ++ ['/'] ∧ fi = [] then none          -- skipping base
  else if dir ≠ [] ∧ dir ≠ name ++ ['/'] ∧ fi ≠ [] then none   -- skipping subtree
  else if HasSuffix eName ['/'] then
    some { Name := eName.take (eName.length - 1), Mode := S_IFDIR }
  else
    some { Name := fi, Mode := S_IFREG }

/-- The second loop of `(*FS).OpenDir` over the listed pairs. -/
def openDirEntries (name : GoString) (kvs : List KVPair) : List DirEntry :=
  kvs.filterMap (fun kv => openDirEntry name kv.Key)

/-- The name `(*FS).OpenDir` lists: `path.Join(fs.root, name)`, or `/` when
that is empty. -/
def openDirName (fs : FS) (name : GoString) : GoString :=
  let name1 := Join [fs.root, name]
  if name1 = [] then ['/'] else name1

/-- Go `(*FS).OpenDir`. -/
def FS.OpenDir (fs : FS) (name : GoString) (s : Store) : (List DirEntry × Status) × Store :=
  let name1 := openDirName fs name
  match s.List name1 with
  | (Except.error _, s1) => (([], Status.ENOENT), s1)
  | (Except.ok kvs, s1) => ((openDirEntries name1 kvs, Status.OK), s1)

/-- Go `(*FS).StatFs`: the `Files` count, `none` for a nil result. -/
def FS.StatFs (_fs : FS) (name : GoString) (s : Store) : Option Nat × Store :=
  match s.List name with
  | (Except.error _, s1) => (none, s1)
  | (Except.ok kvs, s1) => (some kvs.length, s1)

/-- The attributes `(*FS).GetAttr` starts from: every time stamp is `now`, the
mode defaults to a directory. -/
def dirAttr (now : Time) : Attr :=
  { Mtime := toUint64 now.Unix, Mtimensec := toUint32 now.UnixNano,
    Atime := toUint64 now.Unix, Atimensec := toUint32 now.UnixNano,
    Ctime := toUint64 now.Unix, Ctimensec := toUint32 now.UnixNano,
    Mode := S_IFDIR ||| 0o755 }

/-- Go `(*FS).GetAttr`. -/
def FS.GetAttr (_fs : FS) (name : GoString) (now : Time) (s : Store) :
    (Option Attr × Status) × Store :=
  let attr := dirAttr now
  if name = [] then ((some attr, Status.OK), s)
  else
    let finish (kv : KVPair) (s1 : Store) : (Option Attr × Status) × Store :=
      if ! HasSuffix kv.Key ['/'] then
        -- len is a non-negative int, so uint64(len(kv.Value)) is the length
        ((some { attr with Mode := S_IFREG ||| 0o644, Size := kv.Value.length }, Status.OK), s1)
      else ((some attr, Status.OK), s1)
    match s.Get name with
    | (Except.ok kv, s1) => finish kv s1
    | (Except.error StoreErr.ErrKeyNotFound, s1) =>
      -- check if this is a dir, ie the key name might have a trailing "/"
      match s1.Get (name ++ ['/']) with
      | (Except.ok kv, s2) => finish kv s2
      | (Except.error _, s2) => ((none, Status.ENOENT), s2)
    | (Except.error _, s1) => ((none, Status.ENOENT), s1)

/-- Go `(*FS).Mkdir`. -/
def FS.Mkdir (_fs : FS) (name : GoString) (s : Store) : Status × Store :=
  match s.Put (name ++ ['/']) [] with
  | (Except.error _, s1) => (Status.ENOENT, s1)
  | (Except.ok _, s1) => (Status.OK, s1)

/-- Go `(*FS).Rename`. -/
def FS.Rename (_fs : FS) (oldName newName : GoString) (s : Store) : Status × Store :=
  match s.Get oldName with
  | (Except.error _, s1) => (Status.EIO, s1)
  | (Except.ok kv, s1) =>
    let (gotNew, s2) := s1.Get newName
    let undo (t : Store) : Store :=
      match gotNew with
      | Except.ok newKv =>
        let t1 := (t.Put oldName kv.Value).2
        (t1.Put newKv.Key newKv.Value).2
      | Except.error _ =>
        let t1 := (t.Put oldName kv.Value).2
        (t1.Delete newName).2
    match s2.Put newName kv.Value with
    | (Except.error _, s3) => (Status.EIO, s3)
    | (Except.ok _, s3) =>
      match s3.Delete oldName with
      | (Except.error _, s4) => (Status.EIO, undo s4)
      | (Except.ok _, s4) => (Status.OK, s4)

/-- Go `(*FS).Rmdir`. -/
def FS.Rmdir (_fs : FS) (name : GoString) (s : Store) : Status × Store :=
  match s.DeleteTree name with
  | (Except.error _, s1) => (Status.EIO, s1)
  | (Except.ok _, s1) => (Status.OK, s1)

/-- Go `(*FS).Unlink`. -/
def FS.Unlink (_fs : FS) (name : GoString) (s : Store) : Status × Store :=
  match s.Delete name with
  | (Except.error _, s1) => (Status.EIO, s1)
  | (Except.ok _, s1) => (Status.OK, s1)

/-- Go `(*FS).Truncate`; `size` is a `uint64`. -/
def FS.Truncate (_fs : FS) (name : GoString) (size : Nat) (s : Store) : Status × Store :=
  match s.Get name with
  | (Except.error _, s1) => (Status.EIO, s1)
  | (Except.ok kv, s1) =>
    let size1 := if size > kv.Value.length then kv.Value.length else size
    match s1.Put name (kv.Value.take size1) with
    | (Except.error _, s2) => (Status.EIO, s2)
    | (Except.ok _, s2) => (Status.OK, s2)

/-! ## Vocabulary of the statements -/

/-- An entry name: one non-empty path segment other than `.` and `..`. -/
def plainName (d : GoString) : Prop :=
  d ≠ [] ∧ '/' ∉ d ∧ d ≠ ['.'] ∧ d ≠ ['.', '.']

instance (d : GoString) : Decidable (plainName d) := by
  unfold plainName; infer_instance

/-- The store after `Mkdir(a)` and then `Create(a/f)` through the filesystem
`fs`, starting from the store `s`. -/
def mkdirThenCreate (fs : FS) (s : Store) : Store :=
  (fs.Create "a/f".toList (fs.Mkdir "a".toList s).2).2

/-! ## Facts about the store -/

theorem lookup_eraseEntry_self (l : List (GoString × List Byte)) (k : GoString) :
    (eraseEntry k l).lookup k = none := by
  unfold eraseEntry
  induction l with
  | nil => rfl
  | cons e l ih =>
    obtain ⟨a, b⟩ := e
    by_cases h : a = k
    · rw [List.filter_cons_of_neg (by simpa using h)]; exact ih
    · have h2 : (k == a) = false := by simpa using fun h3 => h h3.symm
      rw [List.filter_cons_of_pos (by simpa using h), List.lookup_cons, h2]; exact ih

theorem lookup_eraseEntry_other (l : List (GoString × List Byte)) (k k1 : GoString)
    (hk : k ≠ k1) : (eraseEntry k1 l).lookup k = l.lookup k := by
  unfold eraseEntry
  induction l with
  | nil => rfl
  | cons e l ih =>
    obtain ⟨a, b⟩ := e
    by_cases h : a = k1
    · have h2 : (k == a) = false := by simpa [h] using hk
      rw [List.filter_cons_of_neg (by simpa using h), List.lookup_cons, h2]; exact ih
    · rw [List.filter_cons_of_pos (by simpa using h), List.lookup_cons, List.lookup_cons, ih]

theorem lookup_insertEntry_self (l : List (GoString × List Byte)) (k : GoString)
    (v : List Byte) : (insertEntry k v l).lookup k = some v := by
  simp [insertEntry, List.lookup_cons]

theorem lookup_insertEntry_other (l : List (GoString × List Byte)) (k k1 : GoString)
    (v : List Byte) (hk : k ≠ k1) : (insertEntry k1 v l).lookup k = l.lookup k := by
  have h2 : (k == k1) = false := by simpa using hk
  rw [insertEntry, List.lookup_cons, h2]
  exact lookup_eraseEntry_other l k k1 hk

theorem Get_of_lookup_some (d : List (GoString × List Byte)) (k : GoString) (v : List Byte)
    (h : d.lookup k = some v) :
    Store.Get ⟨d, []⟩ k = (Except.ok { Key := k, Value := v }, ⟨d, []⟩) := by
  simp [Store.Get, Store.nextFault, Store.tick, h]

theorem Get_of_lookup_none (d : List (GoString × List Byte)) (k : GoString)
    (h : d.lookup k = none) :
    Store.Get ⟨d, []⟩ k = (Except.error StoreErr.ErrKeyNotFound, ⟨d, []⟩) := by
  simp [Store.Get, Store.nextFault, Store.tick, h]

theorem Put_of_no_fault (d : List (GoString × List Byte)) (k : GoString) (v : List Byte) :
    Store.Put ⟨d, []⟩ k v = (Except.ok (), ⟨insertEntry k v d, []⟩) := by
  simp [Store.Put, Store.nextFault, Store.tick]

theorem Delete_of_lookup_some (d : List (GoString × List Byte)) (k : GoString) (v : List Byte)
    (h : d.lookup k = some v) :
    Store.Delete ⟨d, []⟩ k = (Except.ok (), ⟨eraseEntry k d, []⟩) := by
  simp [Store.Delete, Store.nextFault, Store.tick, h]

theorem HasSuffix_append_slash (n : GoString) : HasSuffix (n ++ ['/']) ['/'] = true := by
  simp [HasSuffix]

/-! ## Facts about the path helpers -/

theorem LastIndex_of_not_mem (s : GoString) (h : '/' ∉ s) : LastIndex s '/' = -1 := by
  induction s with
  | nil => rfl
  | cons c cs ih =>
    have hc : c ≠ '/' := fun e => h (by simp [e])
    have hcs : '/' ∉ cs := fun e => h (by simp [e])
    simp [LastIndex, ih hcs, hc]

theorem LastIndex_append_slash (a s : GoString) (h : '/' ∉ s) :
    LastIndex (a ++ '/' :: s) '/' = a.length := by
  induction a with
  | nil => simp [LastIndex, LastIndex_of_not_mem s h]
  | cons c cs ih =>
    have : (0 : Int) ≤ cs.length := Int.natCast_nonneg _
    have e : LastIndex (c :: (cs ++ '/' :: s)) '/' = LastIndex (cs ++ '/' :: s) '/' + 1 := by
      simp only [LastIndex, ih, this, if_true]
    rw [List.cons_append, e, ih, List.length_cons, Nat.cast_add, Nat.cast_one]

theorem Split_append_slash (a s : GoString) (h : '/' ∉ s) :
    Split (a ++ '/' :: s) = (a ++ ['/'], s) := by
  have e : (a ++ '/' :: s) = (a ++ ['/']) ++ s := by simp
  have hl : ((a.length : Int) + 1).toNat = (a ++ ['/']).length := by
    simp only [List.length_append, List.length_singleton]
    omega
  simp only [Split, LastIndex_append_slash a s h, hl]
  rw [e, List.take_left, List.drop_left]

theorem openDirEntry_own_marker (name : GoString) : openDirEntry name (name ++ ['/']) = none := by
  simp [openDirEntry, Split_append_slash name [] (by simp)]

theorem eq_append_slash_of_HasSuffix (x : GoString) (h : HasSuffix x ['/'] = true) :
    ∃ k, x = k ++ ['/'] := by
  simp only [HasSuffix, List.length_singleton, Bool.and_eq_true, decide_eq_true_eq,
    beq_iff_eq] at h
  refine ⟨x.take (x.length - 1), ?_⟩
  rw [← h.2, List.take_append_drop]

theorem HasSuffix_cons_of_not_mem (a s : GoString) (c : Char) (h : '/' ∉ c :: s) :
    HasSuffix (a ++ c :: s) ['/'] = false := by
  cases hs : HasSuffix (a ++ c :: s) ['/'] with
  | false => rfl
  | true =>
    exfalso
    obtain ⟨k, hk⟩ := eq_append_slash_of_HasSuffix _ hs
    rcases List.append_eq_append_iff.mp hk with ⟨a1, _, h2⟩ | ⟨c1, _, h2⟩
    · exact h (by rw [h2]; simp)
    · cases c1 with
      | nil =>
        simp only [List.nil_append, List.cons.injEq] at h2
        exact h (by simp [← h2.1])
      | cons y ys =>
        have := congrArg List.length h2
        simp at this

/-- What `OpenDir` does with a file key right below the listed name: an entry
named by the last segment. -/
theorem openDirEntry_file_child (name s : GoString) (c : Char) (h : '/' ∉ c :: s) :
    openDirEntry name (name ++ '/' :: c :: s) = some { Name := c :: s, Mode := S_IFREG } := by
  have e : name ++ '/' :: c :: s = (name ++ ['/']) ++ c :: s := by simp
  have hs : HasSuffix (name ++ '/' :: c :: s) ['/'] = false := by
    rw [e]; exact HasSuffix_cons_of_not_mem _ s c h
  simp [openDirEntry, Split_append_slash name (c :: s) h, hs]

/-- What `OpenDir` does with a marker other than the one of the listed name,
at any depth: an entry named by the whole key without its last byte. -/
theorem openDirEntry_marker (name k : GoString) (h : k ≠ name) :
    openDirEntry name (k ++ ['/']) = some { Name := k, Mode := S_IFDIR } := by
  simp [openDirEntry, Split_append_slash k [] (by simp), h, HasSuffix_append_slash]

theorem cleanLoop_nil (rooted : Bool) (fuel : Nat) (out : GoString) (dotdot : Nat) :
    cleanLoop rooted fuel [] out dotdot = out := by
  cases fuel <;> rfl

theorem getLast?_of_cons (c : Char) (pre : GoString) (h : (c :: pre).getLast? = some '/') :
    pre = [] ∨ pre.getLast? = some '/' := by
  cases pre with
  | nil => exact Or.inl rfl
  | cons x xs => exact Or.inr (by simpa [List.getLast?_cons_cons] using h)

theorem dropWhile_append_of_last (pre d : GoString) (h : pre.getLast? = some '/') :
    ∃ pre2, (pre ++ d).dropWhile (fun b => b ≠ '/') = pre2 ++ d ∧
      pre2.getLast? = some '/' ∧ pre2.length ≤ pre.length := by
  induction pre with
  | nil => simp at h
  | cons x xs ih =>
    by_cases hx : x = '/'
    · refine ⟨x :: xs, ?_, h, le_refl _⟩
      simp [List.dropWhile_cons, hx]
    · rcases getLast?_of_cons x xs h with h1 | h1
      · subst h1
        simp at h
        exact absurd h hx
      · obtain ⟨pre2, e, hl, hlen⟩ := ih h1
        refine ⟨pre2, ?_, hl, Nat.le_succ_of_le hlen⟩
        rw [List.cons_append, List.dropWhile_cons]
        simpa [hx] using e

theorem takeWhile_of_not_mem (d : GoString) (h : '/' ∉ d) :
    d.takeWhile (fun b => b ≠ '/') = d ∧ d.dropWhile (fun b => b ≠ '/') = [] := by
  have hall : ∀ x ∈ d, decide (x ≠ '/') = true := fun x hx => by
    have hx2 : x ≠ '/' := fun e => h (by rw [← e]; exact hx)
    simpa using hx2
  exact ⟨List.takeWhile_eq_self_iff.mpr hall, List.dropWhile_eq_nil_iff.mpr hall⟩

/-- The output of the main loop of `path.Clean` ends with the last element of
the path when that element is a plain name. -/
theorem cleanLoop_suffix (d : GoString) (hd : plainName d) (rooted : Bool) :
    ∀ (fuel : Nat) (pre out : GoString) (dotdot : Nat),
      (pre = [] ∨ pre.getLast? = some '/') → (pre ++ d).length ≤ fuel →
      d <:+ cleanLoop rooted fuel (pre ++ d) out dotdot := by
  obtain ⟨hne, hslash, hdot, hdotdot⟩ := hd
  intro fuel
  induction fuel with
  | zero =>
    intro pre out dotdot _ hlen
    have : d = [] := by
      have h0 : (pre ++ d).length = 0 := Nat.le_zero.mp hlen
      simp at h0
      exact h0.2
    exact absurd this hne
  | succ fuel ih =>
    intro pre out dotdot hpre hlen
    cases pre with
    | nil =>
      obtain ⟨c, r, rfl⟩ := List.exists_cons_of_ne_nil hne
      have hc : c ≠ '/' := fun e => hslash (by simp [e])
      have hr : '/' ∉ r := fun e => hslash (by simp [e])
      have h2 : ¬ (c = '.' ∧ (r = [] ∨ r.head? = some '/')) := by
        rintro ⟨e1, e2 | e2⟩
        · exact hdot (by rw [e1, e2])
        · cases r with
          | nil => simp at e2
          | cons x xs =>
            simp at e2
            exact hr (by simp [e2])
      have h3 : ¬ (c = '.' ∧ r.head? = some '.' ∧ (r.tail = [] ∨ r.tail.head? = some '/')) := by
        rintro ⟨e1, e2, e3⟩
        cases r with
        | nil => simp at e2
        | cons x xs =>
          simp at e2
          rcases e3 with e3 | e3
          · simp at e3
            exact hdotdot (by rw [e1, e2, e3])
          · cases xs with
            | nil => simp at e3
            | cons y ys =>
              simp at e3
              exact hr (by simp [e3])
      obtain ⟨ht, hdr⟩ := takeWhile_of_not_mem (c :: r) hslash
      rw [List.nil_append, cleanLoop]
      simp only [hc, h2, h3, if_false, ht, hdr, cleanLoop_nil]
      exact List.suffix_append _ _
    | cons c pre1 =>
      have hpre0 : (c :: pre1).getLast? = some '/' := by
        rcases hpre with h | h
        · cases h
        · exact h
      have hpre1 := getLast?_of_cons c pre1 hpre0
      have hlen1 : (pre1 ++ d).length ≤ fuel := by
        simp only [List.cons_append, List.length_cons] at hlen
        omega
      have hp : c ≠ '/' → pre1 ≠ [] := by
        intro b1 e
        subst e
        simp at hpre0
        exact b1 hpre0
      rw [List.cons_append, cleanLoop]
      by_cases b1 : c = '/'
      · rw [if_pos b1]
        exact ih pre1 out dotdot hpre1 hlen1
      · rw [if_neg b1]
        by_cases b2 : c = '.' ∧ (pre1 ++ d = [] ∨ (pre1 ++ d).head? = some '/')
        · rw [if_pos b2]
          exact ih pre1 out dotdot hpre1 hlen1
        · rw [if_neg b2]
          by_cases b3 : c = '.' ∧ (pre1 ++ d).head? = some '.' ∧
              ((pre1 ++ d).tail = [] ∨ (pre1 ++ d).tail.head? = some '/')
          · rw [if_pos b3]
            obtain ⟨x, pre2, rfl⟩ := List.exists_cons_of_ne_nil (hp b1)
            have hpre2 := getLast?_of_cons x pre2 (hpre1.resolve_left (hp b1))
            have hlen2 : (pre2 ++ d).length ≤ fuel := by
              simp only [List.cons_append, List.length_cons] at hlen1
              omega
            simp only [List.cons_append, List.tail_cons]
            split_ifs
            · exact ih pre2 _ _ hpre2 hlen2
            · exact ih pre2 _ _ hpre2 hlen2
            · exact ih pre2 _ _ hpre2 hlen2
            · exact ih pre2 _ _ hpre2 hlen2
          · rw [if_neg b3]
            obtain ⟨pre2, e, hl, hlen2⟩ :=
              dropWhile_append_of_last pre1 d (hpre1.resolve_left (hp b1))
            have e2 : (c :: (pre1 ++ d)).dropWhile (fun b => b ≠ '/') = pre2 ++ d := by
              rw [List.dropWhile_cons]
              simpa [b1] using e
            have hlen3 : (pre2 ++ d).length ≤ fuel := by
              simp only [List.length_append] at hlen1 ⊢
              omega
            simp only [e2]
            exact ih pre2 _ _ (Or.inr hl) hlen3

/-- The cleaned path ends with the last element of the path when that element
is a plain name. -/
theorem Clean_suffix (d : GoString) (hd : plainName d) (pre : GoString)
    (hpre : pre = [] ∨ pre.getLast? = some '/') : d <:+ Clean (pre ++ d) := by
  have hne : d ≠ [] := hd.1
  have hpd : pre ++ d ≠ [] := by simp [hne]
  have key : ∀ out : GoString, d <:+ out → d <:+ (if out = [] then ['.'] else out) := by
    intro out h
    have : out ≠ [] := by
      intro e
      rw [e] at h
      exact hne (List.suffix_nil.mp h)
    rw [if_neg this]
    exact h
  unfold Clean
  rw [if_neg hpd]
  by_cases hr : (pre ++ d).head? = some '/'
  · simp only [hr, if_true]
    apply key
    cases pre with
    | nil =>
      obtain ⟨c, r, rfl⟩ := List.exists_cons_of_ne_nil hne
      simp at hr
      exact absurd (by simp [hr]) hd.2.1
    | cons c pre1 =>
      have hpre0 : (c :: pre1).getLast? = some '/' := by
        rcases hpre with h | h
        · cases h
        · exact h
      rw [List.cons_append, List.tail_cons]
      exact cleanLoop_suffix d hd true _ pre1 _ _ (getLast?_of_cons c pre1 hpre0)
        (by simp)
  · simp only [hr, if_false]
    apply key
    exact cleanLoop_suffix d hd false _ pre _ _ hpre (le_refl _)

/-- The name `OpenDir` lists ends with the directory name it is given when
that is a plain name. -/
theorem openDirName_suffix (fs : FS) (d : GoString) (hd : plainName d) :
    d <:+ openDirName fs d := by
  have hne : d ≠ [] := hd.1
  have hj : d <:+ Join [fs.root, d] := by
    unfold Join
    by_cases hr : fs.root = []
    · have := Clean_suffix d hd [] (Or.inl rfl)
      simpa [hr, hne, List.dropWhile_cons, List.intercalate, List.intersperse] using this
    · have := Clean_suffix d hd (fs.root ++ ['/']) (Or.inr (by simp))
      simpa [hr, List.dropWhile_cons, List.intercalate, List.intersperse] using this
  unfold openDirName
  have : Join [fs.root, d] ≠ [] := by
    intro e
    rw [e] at hj
    exact hne (List.suffix_nil.mp hj)
  simp only [this, if_false]
  exact hj

/-- A name that ends with the plain name `d` and starts `d/` is `d`. -/
theorem eq_of_suffix_of_isPrefixOf (d p : GoString) (hd : plainName d) (h1 : d <:+ p)
    (h2 : p <+: d ++ ['/']) : p = d := by
  obtain ⟨a, ha⟩ := h1
  obtain ⟨b, hb⟩ := h2
  have hlen : a.length + d.length + b.length = d.length + 1 := by
    have e1 := congrArg List.length hb
    have e2 := congrArg List.length ha
    simp only [List.length_append, List.length_singleton] at e1 e2
    omega
  cases a with
  | nil => simpa using ha.symm
  | cons x xs =>
    have hxs : xs = [] := by
      simp only [List.length_cons] at hlen
      exact List.length_eq_zero.mp (by omega)
    have hbn : b = [] := by
      simp only [List.length_cons] at hlen
      exact List.length_eq_zero.mp (by omega)
    subst hxs hbn
    rw [← ha] at hb
    simp only [List.append_nil, List.singleton_append] at hb
    -- x :: d = d ++ ['/'] puts a '/' into d
    have hmem : '/' ∈ x :: d := by rw [hb]; simp
    have hx : x ≠ '/' := by
      intro e
      obtain ⟨c, r, rfl⟩ := List.exists_cons_of_ne_nil hd.1
      simp only [List.cons_append, List.cons.injEq] at hb
      exact hd.2.1 (by simp [← hb.1, e])
    rcases List.mem_cons.mp hmem with h | h
    · exact absurd h.symm hx
    · exact absurd h hd.2.1

/-! ## The claims -/

/-- C1: when `oldName` is present with value `v`, `newName` is absent and no
store call fails, `Rename` returns OK; afterwards `Get(oldName)` is not-found
and `Get(newName)` yields exactly `v`. -/
theorem Rename_moves (fs : FS) (s : Store) (oldName newName : GoString) (v : List Byte)
    (hf : s.faults = [])
    (hold : s.data.lookup oldName = some v) (hnew : s.data.lookup newName = none) :
    (fs.Rename oldName newName s).1 = Status.OK ∧
    ((fs.Rename oldName newName s).2.Get oldName).1 = Except.error StoreErr.ErrKeyNotFound ∧
    ((fs.Rename oldName newName s).2.Get newName).1 =
      Except.ok { Key := newName, Value := v } := by
  obtain ⟨d, fl⟩ := s
  simp only at hf hold hnew
  subst hf
  have hne : oldName ≠ newName := by
    intro h; rw [h, hnew] at hold; cases hold
  have e1 : (insertEntry newName v d).lookup oldName = some v := by
    rw [lookup_insertEntry_other _ _ _ _ hne]; exact hold
  have hres : fs.Rename oldName newName ⟨d, []⟩ =
      (Status.OK, ⟨eraseEntry oldName (insertEntry newName v d), []⟩) := by
    simp only [FS.Rename, Get_of_lookup_some d oldName v hold,
      Get_of_lookup_none d newName hnew, Put_of_no_fault,
      Delete_of_lookup_some _ oldName v e1]
  rw [hres]
  refine ⟨rfl, ?_, ?_⟩
  · rw [Get_of_lookup_none _ oldName (lookup_eraseEntry_self _ _)]
  · rw [Get_of_lookup_some _ newName v]
    rw [lookup_eraseEntry_other _ _ _ (fun h => hne h.symm), lookup_insertEntry_self]

/-- C1 at a concrete store: `a` holds two bytes and `b` is absent. -/
theorem Rename_moves_witness :
    (({ root := ['/'] } : FS).Rename ['a'] ['b'] { data := [(['a'], [1, 2])] }).1 = Status.OK ∧
    ((({ root := ['/'] } : FS).Rename ['a'] ['b'] { data := [(['a'], [1, 2])] }).2.Get ['a']).1 =
      Except.error StoreErr.ErrKeyNotFound ∧
    ((({ root := ['/'] } : FS).Rename ['a'] ['b'] { data := [(['a'], [1, 2])] }).2.Get ['b']).1 =
      Except.ok { Key := ['b'], Value := [1, 2] } :=
  Rename_moves { root := ['/'] } { data := [(['a'], [1, 2])] } ['a'] ['b'] [1, 2] rfl
    (by decide) (by decide)

/-- C2 at the default root option, whose root is `/`: on the empty store
`Mkdir(a)` and `Create(a/f)` succeed and store the keys `a/` and `a/f`, but
`OpenDir(a)` lists the name `/a`, finds nothing and returns ENOENT with no
entry.  The same happens on a store that held a key under `/` when it was
mounted. -/
theorem OpenDir_after_Create_default_root :
    rootOf [] = "/".toList ∧
    (FS.Mkdir ⟨rootOf []⟩ "a".toList {}).1 = Status.OK ∧
    (FS.Create ⟨rootOf []⟩ "a/f".toList (FS.Mkdir ⟨rootOf []⟩ "a".toList {}).2).1.2 =
      Status.OK ∧
    (mkdirThenCreate ⟨rootOf []⟩ {}).data = [("a/f".toList, []), ("a/".toList, [])] ∧
    openDirName ⟨rootOf []⟩ "a".toList = "/a".toList ∧
    (FS.OpenDir ⟨rootOf []⟩ "a".toList (mkdirThenCreate ⟨rootOf []⟩ {})).1 =
      ([], Status.ENOENT) ∧
    (NewKVFS [] { data := [("/x".toList, [])] }).1 = some ⟨rootOf []⟩ ∧
    (FS.OpenDir ⟨rootOf []⟩ "a".toList
      (mkdirThenCreate ⟨rootOf []⟩ { data := [("/x".toList, [])] })).1 =
      ([], Status.ENOENT) := by
  decide

/-- C3 at root option `foo`: listing `a` while the store holds the nested
marker `foo/a/b/c/` returns an entry for it, named `foo/a/b/c`. -/
theorem OpenDir_lists_nested_marker :
    rootOf "foo".toList = "foo/".toList ∧
    (FS.OpenDir ⟨rootOf "foo".toList⟩ "a".toList
      { data := [("foo/a/".toList, []), ("foo/a/b/c/".toList, [])] }).1 =
      ([{ Name := "foo/a/b/c".toList, Mode := S_IFDIR }], Status.OK) := by
  decide

/-- C4 at root option `foo`: the direct child `foo/a/b/` of the listed prefix
`foo/a` is returned under the name `foo/a/b`, not under its segment `b`. -/
theorem OpenDir_names_child_marker_by_key :
    openDirName ⟨rootOf "foo".toList⟩ "a".toList = "foo/a".toList ∧
    (FS.OpenDir ⟨rootOf "foo".toList⟩ "a".toList
      { data := [("foo/a/".toList, []), ("foo/a/b/".toList, [])] }).1 =
      ([{ Name := "foo/a/b".toList, Mode := S_IFDIR }], Status.OK) := by
  decide

/-- What `Mkdir(d)` then `OpenDir(d)` return on the empty store for a plain
name `d`: a successful listing with no entry when the name `OpenDir` lists,
`path.Join(root, d)`, is `d` itself, and ENOENT otherwise. -/
theorem OpenDir_after_Mkdir (fs : FS) (d : GoString) (hd : plainName d) :
    (fs.OpenDir d (fs.Mkdir d {}).2).1 =
      if openDirName fs d = d then ([], Status.OK) else ([], Status.ENOENT) := by
  have hm : fs.Mkdir d {} = (Status.OK, ⟨[(d ++ ['/'], [])], []⟩) := by
    simp [FS.Mkdir, Store.Put, Store.nextFault, Store.tick, insertEntry, eraseEntry]
  rw [hm]
  by_cases he : openDirName fs d = d
  · have hp : d.isPrefixOf (d ++ ['/']) = true :=
      List.isPrefixOf_iff_prefix.mpr (List.prefix_append d _)
    simp [FS.OpenDir, Store.List, Store.nextFault, Store.tick, Store.under, he, hp,
      openDirEntries, openDirEntry_own_marker]
  · have hp : (openDirName fs d).isPrefixOf (d ++ ['/']) = false := by
      cases h : (openDirName fs d).isPrefixOf (d ++ ['/']) with
      | false => rfl
      | true =>
        exact absurd (eq_of_suffix_of_isPrefixOf d _ hd (openDirName_suffix fs d hd)
          (List.isPrefixOf_iff_prefix.mp h)) he
    simp [FS.OpenDir, Store.List, Store.nextFault, Store.tick, Store.under, he, hp]

/-- C5 at the default root option, whose root is `/`: on the empty store
`Mkdir(a)` succeeds and stores the marker `a/`, but `OpenDir(a)` lists the name
`/a`, does not find the marker and returns ENOENT instead of a successful
listing with no entry.  The same happens on a store that held a key under `/`
when it was mounted, and under the root option `foo`.  Under the root option
`.`, for which `OpenDir(a)` lists `a`, the listing finds the marker, skips it
and returns OK with no entry. -/
theorem OpenDir_after_Mkdir_default_root :
    rootOf [] = "/".toList ∧
    FS.Mkdir ⟨rootOf []⟩ ['a'] {} = (Status.OK, { data := [("a/".toList, [])] }) ∧
    openDirName ⟨rootOf []⟩ ['a'] = "/a".toList ∧
    (FS.OpenDir ⟨rootOf []⟩ ['a'] (FS.Mkdir ⟨rootOf []⟩ ['a'] {}).2).1 =
      ([], Status.ENOENT) ∧
    (NewKVFS [] { data := [("/x".toList, [])] }).1 = some ⟨rootOf []⟩ ∧
    (FS.OpenDir ⟨rootOf []⟩ ['a']
      (FS.Mkdir ⟨rootOf []⟩ ['a'] { data := [("/x".toList, [])] }).2).1 =
      ([], Status.ENOENT) ∧
    (FS.OpenDir ⟨rootOf "foo".toList⟩ ['a'] (FS.Mkdir ⟨rootOf "foo".toList⟩ ['a'] {}).2).1 =
      ([], Status.ENOENT) ∧
    openDirName ⟨rootOf ['.']⟩ ['a'] = ['a'] ∧
    (FS.OpenDir ⟨rootOf ['.']⟩ ['a'] (FS.Mkdir ⟨rootOf ['.']⟩ ['a'] {}).2).1 =
      ([], Status.OK) := by
  decide

/-- C6 at the one-byte string `[1]`: `Create` returns a handle with an empty
snapshot; `Write([1], 0)` stores `[1]` under the key but leaves the snapshot
empty, so `Read` with the one-byte buffer `[0]` at offset 0 copies nothing and
returns the buffer, `[0]`. -/
theorem Read_after_Write_returns_buffer :
    FS.Create ⟨rootOf []⟩ ['p'] {} =
      ((some { kv := some { Key := ['p'], Value := [] } }, Status.OK),
        { data := [(['p'], [])] }) ∧
    file.Write { kv := some { Key := ['p'], Value := [] } } [1] 0 { data := [(['p'], [])] } =
      some ((1, Status.OK), { kv := some { Key := ['p'], Value := [] } },
        { data := [(['p'], [1])] }) ∧
    file.Read { kv := some { Key := ['p'], Value := [] } } [0] 0 = some ([0], Status.OK) := by
  decide

/-- C7 at an empty snapshot and at a three-byte one: the result of `Read` is
the whole buffer, so it has `len(buf)` bytes, not `min(len(buf), len(v) - off)`. -/
theorem Read_returns_whole_buffer :
    file.Read { kv := some { Key := ['p'], Value := [] } } [0] 0 = some ([0], Status.OK) ∧
    file.Read { kv := some { Key := ['p'], Value := [1, 2, 3] } } [9, 9, 9, 9, 9] 1 =
      some ([2, 3, 9, 9, 9], Status.OK) := by
  decide

/-- C8: on a handle bound to `kv`, for `0 <= off <= len(kv.Value)` and data
shorter than `2^32` bytes: when the store's Put succeeds, `Write(d, off)`
returns `(len(d), OK)` and leaves the store mapping `kv.Key` to
`kv.Value[0:off]` followed by `d`; when the Put fails, it returns `(0, EIO)`. -/
theorem Write_puts (f : file) (kv : KVPair) (d : List Byte) (off : Int) (s : Store)
    (hkv : f.kv = some kv) (h0 : 0 ≤ off) (h1 : off ≤ kv.Value.length)
    (hd : d.length < 2 ^ 32) :
    (s.nextFault = none →
      ∃ f1 s1, f.Write d off s = some ((d.length, Status.OK), f1, s1) ∧
        s1.data.lookup kv.Key = some (kv.Value.take off.toNat ++ d)) ∧
    (∀ e, s.nextFault = some e →
      ∃ f1 s1, f.Write d off s = some ((0, Status.EIO), f1, s1)) := by
  have hb : ¬ (off < 0 ∨ (((kv.Value ++ kv.spare).length : Nat) : Int) < off) := by
    simp only [List.length_append, Nat.cast_add]
    omega
  have ho : off.toNat ≤ kv.Value.length := by omega
  constructor
  · intro hn
    simp only [file.Write, hkv, hb, if_false, Store.Put, hn, Nat.mod_eq_of_lt hd]
    refine ⟨_, _, rfl, ?_⟩
    simp only [lookup_insertEntry_self, List.take_append_of_le_length ho]
  · intro e he
    simp only [file.Write, hkv, hb, if_false, Store.Put, he]
    exact ⟨_, _, rfl⟩

/-- C8 at a concrete handle: writing two bytes at offset 1 of a three-byte
snapshot, once with a healthy store and once with a failing Put. -/
theorem Write_puts_witness :
    (∃ f1 s1, file.Write { kv := some { Key := ['k'], Value := [1, 2, 3] } } [8, 9] 1 {} =
        some ((2, Status.OK), f1, s1) ∧ s1.data.lookup ['k'] = some [1, 8, 9]) ∧
    (∃ f1 s1, file.Write { kv := some { Key := ['k'], Value := [1, 2, 3] } } [8, 9] 1
        { faults := [some StoreErr.ErrOther] } = some ((0, Status.EIO), f1, s1)) :=
  ⟨(Write_puts { kv := some { Key := ['k'], Value := [1, 2, 3] } }
      { Key := ['k'], Value := [1, 2, 3] } [8, 9] 1 {} rfl (by decide) (by decide)
      (by decide)).1 rfl,
   (Write_puts { kv := some { Key := ['k'], Value := [1, 2, 3] } }
      { Key := ['k'], Value := [1, 2, 3] } [8, 9] 1 { faults := [some StoreErr.ErrOther] } rfl
      (by decide) (by decide) (by decide)).2 StoreErr.ErrOther rfl⟩

/-- C9: when `p` is present with value `v` and no store call fails,
`Truncate(p, n)` returns OK and afterwards `p` holds the first
`min(n, len(v))` bytes of `v`; when `n` is at least `len(v)` the value is
unchanged (clamped, never padded). -/
theorem Truncate_clamps (fs : FS) (s : Store) (p : GoString) (v : List Byte) (n : Nat)
    (hf : s.faults = []) (hp : s.data.lookup p = some v) :
    (fs.Truncate p n s).1 = Status.OK ∧
    ((fs.Truncate p n s).2.Get p).1 = Except.ok { Key := p, Value := v.take (min n v.length) } ∧
    (v.length ≤ n → ((fs.Truncate p n s).2.Get p).1 = Except.ok { Key := p, Value := v }) := by
  obtain ⟨d, fl⟩ := s
  simp only at hf hp
  subst hf
  have hres : fs.Truncate p n ⟨d, []⟩ =
      (Status.OK, ⟨insertEntry p (v.take (min n v.length)) d, []⟩) := by
    simp only [FS.Truncate, Get_of_lookup_some d p v hp, Put_of_no_fault]
    by_cases h : n > v.length
    · simp [h, Nat.min_eq_right (Nat.le_of_lt h)]
    · simp [h, Nat.min_eq_left (Nat.le_of_not_lt h)]
  rw [hres]
  refine ⟨rfl, ?_, ?_⟩
  · rw [Get_of_lookup_some _ p _ (lookup_insertEntry_self _ _ _)]
  · intro hn
    rw [Get_of_lookup_some _ p _ (lookup_insertEntry_self _ _ _), Nat.min_eq_right hn,
      List.take_length]


/-- C9 at a concrete store: truncating a three-byte value to seven bytes. -/
theorem Truncate_clamps_witness :
    (({ root := ['/'] } : FS).Truncate ['a'] 7 { data := [(['a'], [1, 2, 3])] }).1 = Status.OK ∧
    ((({ root := ['/'] } : FS).Truncate ['a'] 7 { data := [(['a'], [1, 2, 3])] }).2.Get ['a']).1 =
      Except.ok { Key := ['a'], Value := [1, 2, 3] } :=
  have h := Truncate_clamps { root := ['/'] } { data := [(['a'], [1, 2, 3])] } ['a'] [1, 2, 3] 7
    rfl (by decide)
  ⟨h.1, h.2.2 (by decide)⟩

/-- C10: `GetAttr` of the empty name is OK with directory attributes whatever
the store holds.  For a non-empty name `n` and a store whose calls do not
fail: when the store holds `n`, the result is OK with regular-file attributes
(`S_IFREG|0644`, size the length of the value) if `n` does not end in `/` and
directory attributes (`S_IFDIR|0755`) if it does; when the store holds
`n + "/"` but not `n`, the result is OK with directory attributes. -/
theorem GetAttr_synthesis (fs : FS) (now : Time) (s : Store) :
    (∃ a, (fs.GetAttr [] now s).1 = (some a, Status.OK) ∧ a.Mode = S_IFDIR ||| 0o755) ∧
    (∀ n v, n ≠ [] → s.faults = [] → s.data.lookup n = some v → HasSuffix n ['/'] = false →
      ∃ a, (fs.GetAttr n now s).1 = (some a, Status.OK) ∧
        a.Mode = S_IFREG ||| 0o644 ∧ a.Size = v.length) ∧
    (∀ n v, n ≠ [] → s.faults = [] → s.data.lookup n = some v → HasSuffix n ['/'] = true →
      ∃ a, (fs.GetAttr n now s).1 = (some a, Status.OK) ∧ a.Mode = S_IFDIR ||| 0o755) ∧
    (∀ n v, n ≠ [] → s.faults = [] → s.data.lookup n = none →
      s.data.lookup (n ++ ['/']) = some v →
      ∃ a, (fs.GetAttr n now s).1 = (some a, Status.OK) ∧ a.Mode = S_IFDIR ||| 0o755) := by
  obtain ⟨d, fl⟩ := s
  refine ⟨⟨dirAttr now, by simp [FS.GetAttr], rfl⟩, ?_, ?_, ?_⟩
  · intro n v hn hf hv hs
    simp only at hf hv
    subst hf
    simp only [FS.GetAttr, hn, if_false, Get_of_lookup_some d n v hv, hs]
    exact ⟨_, rfl, rfl, rfl⟩
  · intro n v hn hf hv hs
    simp only at hf hv
    subst hf
    simp only [FS.GetAttr, hn, if_false, Get_of_lookup_some d n v hv, hs]
    exact ⟨_, rfl, rfl⟩
  · intro n v hn hf hv hv2
    simp only at hf hv hv2
    subst hf
    simp only [FS.GetAttr, hn, if_false, Get_of_lookup_none d n hv,
      Get_of_lookup_some d _ v hv2, HasSuffix_append_slash]
    exact ⟨_, rfl, rfl⟩

/-- C10 at a concrete store holding the file `f` (three bytes) and the
directory marker `d/`. -/
theorem GetAttr_synthesis_witness :
    (∃ a, (({ root := ['/'] } : FS).GetAttr ['f'] ⟨5, 5000⟩
        { data := [(['f'], [1, 2, 3]), (['d', '/'], [])] }).1 = (some a, Status.OK) ∧
      a.Mode = S_IFREG ||| 0o644 ∧ a.Size = 3) ∧
    (∃ a, (({ root := ['/'] } : FS).GetAttr ['d'] ⟨5, 5000⟩
        { data := [(['f'], [1, 2, 3]), (['d', '/'], [])] }).1 = (some a, Status.OK) ∧
      a.Mode = S_IFDIR ||| 0o755) :=
  have h := GetAttr_synthesis { root := ['/'] } ⟨5, 5000⟩
    { data := [(['f'], [1, 2, 3]), (['d', '/'], [])] }
  ⟨h.2.1 ['f'] [1, 2, 3] (by decide) rfl (by decide) (by decide),
   h.2.2.2 ['d'] [] (by decide) rfl (by decide) (by decide)⟩


/-! ## Facts used by the claims on errors, rename and removal -/

theorem lookup_filter_key (p : GoString → Bool) (l : List (GoString × List Byte))
    (k : GoString) :
    (l.filter (fun e => p e.1)).lookup k = if p k = true then l.lookup k else none := by
  induction l with
  | nil => simp
  | cons e l ih =>
    obtain ⟨a, b⟩ := e
    by_cases ha : p a = true
    · have e1 : List.filter (fun e : GoString × List Byte => p e.1) ((a, b) :: l) =
          (a, b) :: List.filter (fun e => p e.1) l := by
        simp only [List.filter_cons, ha, if_true]
      rw [e1, List.lookup_cons, List.lookup_cons, ih]
      by_cases hk : k = a
      · subst hk; simp [ha]
      · have h2 : (k == a) = false := by simpa using hk
        simp [h2]
    · have e1 : List.filter (fun e : GoString × List Byte => p e.1) ((a, b) :: l) =
          List.filter (fun e => p e.1) l := by
        simp [List.filter_cons, ha]
      rw [e1, ih, List.lookup_cons]
      by_cases hk : k = a
      · subst hk; simp [ha]
      · have h2 : (k == a) = false := by simpa using hk
        simp [h2]

theorem Rmdir_ok_data (fs : FS) (d : GoString) (s : Store)
    (hok : (fs.Rmdir d s).1 = Status.OK) :
    (fs.Rmdir d s).2.data = s.data.filter (fun e => ! d.isPrefixOf e.1) := by
  unfold FS.Rmdir Store.DeleteTree at hok ⊢
  cases hn : s.nextFault with
  | some e => simp [hn] at hok
  | none =>
    by_cases hu : s.under d = []
    · simp [hn, hu] at hok
    · simp [hn, hu, Store.tick]

theorem Read_beyond_value (f : file) (kv : KVPair) (buf : List Byte) (off : Int)
    (hkv : f.kv = some kv) (hoff : (kv.Value.length : Int) < off) : f.Read buf off = none := by
  simp only [file.Read, hkv]
  split_ifs with h1 h2 h2
  · rfl
  · exact absurd (Or.inr hoff) h2
  · rfl
  · exfalso
    apply h2
    right
    omega

theorem Get_error_of_lookup_none (s : Store) (k : GoString) (h : s.data.lookup k = none) :
    ∃ e, s.Get k = (Except.error e, s.tick) := by
  unfold Store.Get
  cases s.nextFault with
  | some e => exact ⟨e, rfl⟩
  | none => exact ⟨StoreErr.ErrKeyNotFound, by simp [h]⟩

theorem under_ne_nil_of_lookup (s : Store) (d k : GoString) (v : List Byte)
    (hk : d <+: k) (h : s.data.lookup k = some v) : s.under d ≠ [] := by
  intro hu
  have e := lookup_filter_key (fun k => d.isPrefixOf k) s.data k
  have hu2 : List.filter (fun e => d.isPrefixOf e.1) s.data = [] := hu
  rw [hu2] at e
  simp [List.isPrefixOf_iff_prefix.mpr hk, h] at e

/-! ## The claims on errors, rename and removal -/

/-- C11, amended: when the store holds no entry under `p`, `Open(p)` returns
ENOENT; when moreover `p` is not the empty name and the store holds no marker
`p/` either, `GetAttr(p)` returns ENOENT.  Injected store faults do not change
either answer. -/
theorem Open_GetAttr_absent (fs : FS) (p : GoString) (now : Time) (s : Store)
    (hp : s.data.lookup p = none) :
    (fs.Open p s).1 = (none, Status.ENOENT) ∧
    (p ≠ [] → s.data.lookup (p ++ ['/']) = none →
      (fs.GetAttr p now s).1 = (none, Status.ENOENT)) := by
  obtain ⟨e, he⟩ := Get_error_of_lookup_none s p hp
  refine ⟨by simp [FS.Open, he], ?_⟩
  intro hne hm
  obtain ⟨e2, he2⟩ := Get_error_of_lookup_none s.tick (p ++ ['/']) (by simpa [Store.tick] using hm)
  cases e with
  | ErrKeyNotFound => simp [FS.GetAttr, hne, he, he2]
  | ErrOther => simp [FS.GetAttr, hne, he]

/-- C11 at the path `p` on a store that holds only `q`. -/
theorem Open_GetAttr_absent_witness :
    (FS.Open ⟨rootOf []⟩ ['p'] { data := [(['q'], [1])] }).1 = (none, Status.ENOENT) ∧
    (FS.GetAttr ⟨rootOf []⟩ ['p'] ⟨5, 5000⟩ { data := [(['q'], [1])] }).1 =
      (none, Status.ENOENT) :=
  have h := Open_GetAttr_absent ⟨rootOf []⟩ ['p'] ⟨5, 5000⟩ { data := [(['q'], [1])] }
    (by decide)
  ⟨h.1, h.2 (by decide) (by decide)⟩

/-- C11 as stated fails for the empty path: on the empty store, which holds no
entry at all, `Open("")` returns ENOENT but `GetAttr("")` returns OK with
directory attributes. -/
theorem GetAttr_root_is_found :
    (FS.Open ⟨rootOf []⟩ [] {}).1 = (none, Status.ENOENT) ∧
    (FS.GetAttr ⟨rootOf []⟩ [] ⟨5, 5000⟩ {}).1 = (some (dirAttr ⟨5, 5000⟩), Status.OK) := by
  decide

/-- C12 at a three-byte snapshot: `Read` with a one-byte buffer at offset 4
clamps `end` to 3 and then slices `Value[4:3]`, which panics; at offset 3 it
still returns OK. -/
theorem Read_beyond_value_panics :
    file.Read { kv := some { Key := ['p'], Value := [1, 2, 3] } } [0] 4 = none ∧
    file.Read { kv := some { Key := ['p'], Value := [1, 2, 3] } } [0] 3 =
      some ([0], Status.OK) := by
  decide

/-- C13, amended: every operation reports one fixed status for an error of a
store call, whatever the error is.  `Open`, `OpenDir`, `GetAttr`, `Mkdir` and
the Put of `Create` report ENOENT; the read-back Get of `Create`, and the
calls of `Rename`, `Rmdir`, `Unlink` and `Truncate` report EIO.  (`GetAttr`
answers a key-not-found first Get by a second Get on `name/`; only the failure
of both, or another error of the first, is reported.) -/
theorem store_error_gives_fixed_status (fs : FS) (name newName : GoString) (now : Time)
    (size : Nat) (s : Store) (e : StoreErr) :
    ((s.Get name).1 = Except.error e → (fs.Open name s).1.2 = Status.ENOENT) ∧
    ((s.Put name []).1 = Except.error e → (fs.Create name s).1.2 = Status.ENOENT) ∧
    ((s.Put name []).1 = Except.ok () → ((s.Put name []).2.Get name).1 = Except.error e →
      (fs.Create name s).1.2 = Status.EIO) ∧
    ((s.List (openDirName fs name)).1 = Except.error e →
      (fs.OpenDir name s).1.2 = Status.ENOENT) ∧
    (name ≠ [] → (s.Get name).1 = Except.error e → e ≠ StoreErr.ErrKeyNotFound →
      (fs.GetAttr name now s).1.2 = Status.ENOENT) ∧
    (name ≠ [] → (s.Get name).1 = Except.error StoreErr.ErrKeyNotFound →
      ((s.Get name).2.Get (name ++ ['/'])).1 = Except.error e →
      (fs.GetAttr name now s).1.2 = Status.ENOENT) ∧
    ((s.Put (name ++ ['/']) []).1 = Except.error e → (fs.Mkdir name s).1 = Status.ENOENT) ∧
    ((s.Get name).1 = Except.error e → (fs.Rename name newName s).1 = Status.EIO) ∧
    (∀ kv, (s.Get name).1 = Except.ok kv →
      ((((s.Get name).2.Get newName).2.Put newName kv.Value).1 = Except.error e →
        (fs.Rename name newName s).1 = Status.EIO) ∧
      ((((s.Get name).2.Get newName).2.Put newName kv.Value).1 = Except.ok () →
        ((((s.Get name).2.Get newName).2.Put newName kv.Value).2.Delete name).1 =
          Except.error e →
        (fs.Rename name newName s).1 = Status.EIO)) ∧
    ((s.DeleteTree name).1 = Except.error e → (fs.Rmdir name s).1 = Status.EIO) ∧
    ((s.Delete name).1 = Except.error e → (fs.Unlink name s).1 = Status.EIO) ∧
    ((s.Get name).1 = Except.error e → (fs.Truncate name size s).1 = Status.EIO) ∧
    (∀ kv, (s.Get name).1 = Except.ok kv →
      ((s.Get name).2.Put name
          (kv.Value.take (if size > kv.Value.length then kv.Value.length else size))).1 =
        Except.error e →
      (fs.Truncate name size s).1 = Status.EIO) := by
  refine ⟨?_, ?_, ?_, ?_, ?_, ?_, ?_, ?_, ?_, ?_, ?_, ?_, ?_⟩
  · intro h
    rcases hg : s.Get name with ⟨r, s1⟩
    rw [hg] at h
    simp only at h
    subst h
    simp [FS.Open, hg]
  · intro h
    rcases hg : s.Put name [] with ⟨r, s1⟩
    rw [hg] at h
    simp only at h
    subst h
    simp [FS.Create, hg]
  · intro h1 h2
    rcases hg : s.Put name [] with ⟨r, s1⟩
    rw [hg] at h1 h2
    simp only at h1 h2
    subst h1
    rcases hg2 : s1.Get name with ⟨r2, s2⟩
    rw [hg2] at h2
    simp only at h2
    subst h2
    simp [FS.Create, hg, hg2]
  · intro h
    rcases hg : s.List (openDirName fs name) with ⟨r, s1⟩
    rw [hg] at h
    simp only at h
    subst h
    simp [FS.OpenDir, hg]
  · intro hn h he
    rcases hg : s.Get name with ⟨r, s1⟩
    rw [hg] at h
    simp only at h
    subst h
    cases e with
    | ErrKeyNotFound => exact absurd rfl he
    | ErrOther => simp [FS.GetAttr, hn, hg]
  · intro hn h1 h2
    rcases hg : s.Get name with ⟨r, s1⟩
    rw [hg] at h1 h2
    simp only at h1 h2
    subst h1
    rcases hg2 : s1.Get (name ++ ['/']) with ⟨r2, s2⟩
    rw [hg2] at h2
    simp only at h2
    subst h2
    simp [FS.GetAttr, hn, hg, hg2]
  · intro h
    rcases hg : s.Put (name ++ ['/']) [] with ⟨r, s1⟩
    rw [hg] at h
    simp only at h
    subst h
    simp [FS.Mkdir, hg]
  · intro h
    rcases hg : s.Get name with ⟨r, s1⟩
    rw [hg] at h
    simp only at h
    subst h
    simp [FS.Rename, hg]
  · intro kv h
    rcases hg : s.Get name with ⟨r, s1⟩
    rw [hg] at h
    simp only at h
    subst h
    rcases hg2 : s1.Get newName with ⟨r2, s2⟩
    simp only []
    constructor
    · intro h3
      rcases hg3 : s2.Put newName kv.Value with ⟨r3, s3⟩
      rw [hg3] at h3
      simp only at h3
      subst h3
      simp [FS.Rename, hg, hg2, hg3]
    · intro h3 h4
      rcases hg3 : s2.Put newName kv.Value with ⟨r3, s3⟩
      rw [hg3] at h3 h4
      simp only at h3 h4
      subst h3
      rcases hg4 : s3.Delete name with ⟨r4, s4⟩
      rw [hg4] at h4
      simp only at h4
      subst h4
      simp [FS.Rename, hg, hg2, hg3, hg4]
  · intro h
    rcases hg : s.DeleteTree name with ⟨r, s1⟩
    rw [hg] at h
    simp only at h
    subst h
    simp [FS.Rmdir, hg]
  · intro h
    rcases hg : s.Delete name with ⟨r, s1⟩
    rw [hg] at h
    simp only at h
    subst h
    simp [FS.Unlink, hg]
  · intro h
    rcases hg : s.Get name with ⟨r, s1⟩
    rw [hg] at h
    simp only at h
    subst h
    simp [FS.Truncate, hg]
  · intro kv h h2
    rcases hg : s.Get name with ⟨r, s1⟩
    rw [hg] at h h2
    simp only at h h2
    subst h
    rcases hg2 : s1.Put name
      (kv.Value.take (if size > kv.Value.length then kv.Value.length else size)) with ⟨r2, s2⟩
    rw [hg2] at h2
    simp only at h2
    subst h2
    simp [FS.Truncate, hg, hg2]

/-- C13 at the path `p` with a store whose next call fails with an error other
than key-not-found: `Open` reports ENOENT, `Unlink` and `Truncate` report EIO. -/
theorem store_error_gives_fixed_status_witness :
    (FS.Open ⟨rootOf []⟩ ['p'] { faults := [some StoreErr.ErrOther] }).1.2 = Status.ENOENT ∧
    (FS.Unlink ⟨rootOf []⟩ ['p'] { faults := [some StoreErr.ErrOther] }).1 = Status.EIO ∧
    (FS.Truncate ⟨rootOf []⟩ ['p'] 0 { faults := [some StoreErr.ErrOther] }).1 = Status.EIO :=
  have h := store_error_gives_fixed_status ⟨rootOf []⟩ ['p'] ['q'] ⟨5, 5000⟩ 0
    { faults := [some StoreErr.ErrOther] } StoreErr.ErrOther
  ⟨h.1 rfl, h.2.2.2.2.2.2.2.2.2.2.1 rfl, h.2.2.2.2.2.2.2.2.2.2.2.1 rfl⟩

/-- C13 as stated fails in both directions: `Open` reports ENOENT when its Get
fails with an error other than key-not-found, and `Unlink`, `Rename` and
`Truncate` report EIO when the store answers key-not-found. -/
theorem error_kind_is_not_mapped :
    ((Store.Get { faults := [some StoreErr.ErrOther] } ['p']).1 =
        Except.error StoreErr.ErrOther ∧
     (FS.Open ⟨rootOf []⟩ ['p'] { faults := [some StoreErr.ErrOther] }).1.2 =
        Status.ENOENT) ∧
    ((Store.Delete {} ['p']).1 = Except.error StoreErr.ErrKeyNotFound ∧
     (FS.Unlink ⟨rootOf []⟩ ['p'] {}).1 = Status.EIO) ∧
    ((Store.Get {} ['p']).1 = Except.error StoreErr.ErrKeyNotFound ∧
     (FS.Rename ⟨rootOf []⟩ ['p'] ['q'] {}).1 = Status.EIO ∧
     (FS.Truncate ⟨rootOf []⟩ ['p'] 0 {}).1 = Status.EIO) :=
  ⟨⟨rfl, rfl⟩, ⟨rfl, rfl⟩, ⟨rfl, rfl, rfl⟩⟩

/-- What the compensation of `Rename` restores when the probe of `newName`
answered: `oldName` holds `v`; the Get of `oldName` and the Put run, the Get of
`newName` runs or fails while `newName` is absent, the Delete of `oldName`
fails with `e`, and the compensating calls run.  Then `Rename` returns EIO,
`oldName` holds `v` afterwards and `newName` holds what it held before the
call, or nothing if it held nothing. -/
theorem Rename_undo_restores (fs : FS) (s : Store) (oldName newName : GoString)
    (v : List Byte) (f2 : Option StoreErr) (e : StoreErr)
    (hf : s.faults = [none, f2, none, some e])
    (h2 : f2 = none ∨ s.data.lookup newName = none)
    (hold : s.data.lookup oldName = some v) :
    (fs.Rename oldName newName s).1 = Status.EIO ∧
    (fs.Rename oldName newName s).2.data.lookup oldName = some v ∧
    (fs.Rename oldName newName s).2.data.lookup newName = s.data.lookup newName ∧
    (fs.Rename oldName newName s).2.faults = [] := by
  obtain ⟨d, fl⟩ := s
  simp only at hf hold h2
  subst hf
  cases hnew : d.lookup newName with
  | some w =>
    have hf2 : f2 = none := by
      rcases h2 with h | h
      · exact h
      · rw [hnew] at h; cases h
    subst hf2
    have hres : fs.Rename oldName newName ⟨d, [none, none, none, some e]⟩ =
        (Status.EIO,
          ⟨insertEntry newName w (insertEntry oldName v (insertEntry newName v d)), []⟩) := by
      simp [FS.Rename, Store.Get, Store.Put, Store.Delete, Store.nextFault, Store.tick,
        hold, hnew]
    rw [hres]
    refine ⟨rfl, ?_, lookup_insertEntry_self _ _ _, rfl⟩
    by_cases hne : oldName = newName
    · subst hne
      rw [hold] at hnew
      simp only [Option.some.injEq] at hnew
      rw [lookup_insertEntry_self, hnew]
    · simp only [lookup_insertEntry_other _ _ _ _ hne, lookup_insertEntry_self]
  | none =>
    have hne : oldName ≠ newName := by
      intro h; rw [h, hnew] at hold; cases hold
    have hl : (insertEntry oldName v (insertEntry newName v d)).lookup newName = some v := by
      rw [lookup_insertEntry_other _ _ _ _ (fun h => hne h.symm), lookup_insertEntry_self]
    have hres : fs.Rename oldName newName ⟨d, [none, f2, none, some e]⟩ =
        (Status.EIO,
          ⟨eraseEntry newName (insertEntry oldName v (insertEntry newName v d)), []⟩) := by
      cases f2 with
      | none =>
        simp [FS.Rename, Store.Get, Store.Put, Store.Delete, Store.nextFault, Store.tick,
          hold, hnew, hl]
      | some e2 =>
        simp [FS.Rename, Store.Get, Store.Put, Store.Delete, Store.nextFault, Store.tick,
          hold, hl]
    rw [hres]
    refine ⟨rfl, ?_, lookup_eraseEntry_self _ _, rfl⟩
    simp only [lookup_eraseEntry_other _ _ _ hne, lookup_insertEntry_self]

/-- C14 at a store in which `a` holds `[1]` and `b` holds `[2]`: the Get of
`a` runs, the probing Get of `b` fails with an error other than key-not-found,
the Put at `b` runs, the Delete of `a` fails and the compensating calls run.
`Rename` returns EIO and `a` holds `[1]`, but the compensation took `b` for
absent and deleted it: `b` held `[2]` before the call and holds nothing
afterwards.  With an answering probe, `b` holds `[2]` again. -/
theorem Rename_undo_deletes_after_failed_probe :
    FS.Rename ⟨rootOf []⟩ ['a'] ['b']
      { data := [(['a'], [1]), (['b'], [2])],
        faults := [none, some StoreErr.ErrOther, none, some StoreErr.ErrOther] } =
      (Status.EIO, { data := [(['a'], [1])], faults := [] }) ∧
    (FS.Rename ⟨rootOf []⟩ ['a'] ['b']
      { data := [(['a'], [1]), (['b'], [2])],
        faults := [none, some StoreErr.ErrOther, none, some StoreErr.ErrOther] }).2.data.lookup
        ['b'] = none ∧
    (FS.Rename ⟨rootOf []⟩ ['a'] ['b']
      { data := [(['a'], [1]), (['b'], [2])],
        faults := [none, none, none, some StoreErr.ErrOther] }).2.data.lookup ['b'] =
      some [2] := by
  decide

/-- C15: on a store whose calls do not fail and that holds `d/x` and `d/y`,
`Rmdir(d)` returns OK and leaves exactly the entries whose key does not start
with `d`, with no fault pending.  So `d/x`, `d/y` and every other key that
starts with `d` are gone from the store and not-found for Get afterwards, and
`OpenDir(d)` returns ENOENT provided every key that starts with the name it
lists, `path.Join(root, d)`, is one that started with `d` (as on a store
populated only with keys under `d`). -/
theorem Rmdir_then_OpenDir (fs : FS) (d x y : GoString) (vx vy : List Byte) (s : Store)
    (hf : s.faults = [])
    (hx : s.data.lookup (d ++ '/' :: x) = some vx)
    (hy : s.data.lookup (d ++ '/' :: y) = some vy)
    (hP : ∀ e ∈ s.data, openDirName fs d <+: e.1 → d <+: e.1) :
    (fs.Rmdir d s).1 = Status.OK ∧
    (fs.Rmdir d s).2 =
      { data := s.data.filter (fun e => ! d.isPrefixOf e.1), faults := [] } ∧
    (∀ e ∈ (fs.Rmdir d s).2.data, ¬ d <+: e.1) ∧
    (fs.Rmdir d s).2.data.lookup (d ++ '/' :: x) = none ∧
    (fs.Rmdir d s).2.data.lookup (d ++ '/' :: y) = none ∧
    ((fs.Rmdir d s).2.Get (d ++ '/' :: x)).1 = Except.error StoreErr.ErrKeyNotFound ∧
    ((fs.Rmdir d s).2.Get (d ++ '/' :: y)).1 = Except.error StoreErr.ErrKeyNotFound ∧
    (∀ k, d <+: k → (fs.Rmdir d s).2.data.lookup k = none ∧
      ((fs.Rmdir d s).2.Get k).1 = Except.error StoreErr.ErrKeyNotFound) ∧
    fs.OpenDir d (fs.Rmdir d s).2 = (([], Status.ENOENT), (fs.Rmdir d s).2) := by
  have hu : s.under d ≠ [] :=
    under_ne_nil_of_lookup s d _ vx (List.prefix_append d _) hx
  obtain ⟨dt, fl⟩ := s
  simp only at hf hP
  subst hf
  have hres : fs.Rmdir d ⟨dt, []⟩ =
      (Status.OK, ⟨dt.filter (fun e => ! d.isPrefixOf e.1), []⟩) := by
    simp [FS.Rmdir, Store.DeleteTree, Store.nextFault, Store.tick, hu]
  have hlook : ∀ k, d <+: k →
      (dt.filter (fun e => ! d.isPrefixOf e.1)).lookup k = none := by
    intro k hk
    rw [lookup_filter_key (fun k => ! d.isPrefixOf k)]
    simp [List.isPrefixOf_iff_prefix.mpr hk]
  have hgone : ∀ k, d <+: k →
      (Store.Get ⟨dt.filter (fun e => ! d.isPrefixOf e.1), []⟩ k).1 =
        Except.error StoreErr.ErrKeyNotFound := by
    intro k hk
    rw [Get_of_lookup_none _ _ (hlook k hk)]
  rw [hres]
  refine ⟨rfl, rfl, ?_, hlook _ (List.prefix_append d _), hlook _ (List.prefix_append d _),
    hgone _ (List.prefix_append d _), hgone _ (List.prefix_append d _),
    fun k hk => ⟨hlook k hk, hgone k hk⟩, ?_⟩
  · intro e he h2
    have h1 := (List.mem_filter.mp he).2
    rw [List.isPrefixOf_iff_prefix.mpr h2] at h1
    exact absurd h1 (by decide)
  · have hnone : Store.under ⟨dt.filter (fun e => ! d.isPrefixOf e.1), []⟩ (openDirName fs d)
        = [] := by
      simp only [Store.under]
      rw [List.filter_eq_nil_iff]
      intro e he h1
      have he2 := List.mem_filter.mp he
      have h3 := hP e he2.1 (List.isPrefixOf_iff_prefix.mp h1)
      have h4 := he2.2
      rw [List.isPrefixOf_iff_prefix.mpr h3] at h4
      exact absurd h4 (by decide)
    simp [FS.OpenDir, Store.List, Store.nextFault, Store.tick, hnone]

/-- C15 at `d = a` with the root option `.`, under which `OpenDir(a)` lists the
name `a`: the store holds `a/y`, `a/x` and `b`.  Before `Rmdir(a)` the listing
returns the entries `y` and `x`; `Rmdir(a)` returns OK and leaves only `b`;
afterwards `a/x` is not-found and `OpenDir(a)` returns ENOENT. -/
theorem Rmdir_then_OpenDir_witness :
    openDirName ⟨rootOf ['.']⟩ ['a'] = ['a'] ∧
    (FS.OpenDir ⟨rootOf ['.']⟩ ['a']
      { data := [("a/y".toList, [2]), ("a/x".toList, [1]), (['b'], [3])] }).1 =
      ([{ Name := ['y'], Mode := S_IFREG }, { Name := ['x'], Mode := S_IFREG }], Status.OK) ∧
    FS.Rmdir ⟨rootOf ['.']⟩ ['a']
      { data := [("a/y".toList, [2]), ("a/x".toList, [1]), (['b'], [3])] } =
      (Status.OK, { data := [(['b'], [3])], faults := [] }) ∧
    ((FS.Rmdir ⟨rootOf ['.']⟩ ['a']
      { data := [("a/y".toList, [2]), ("a/x".toList, [1]), (['b'], [3])] }).2.Get
        "a/x".toList).1 = Except.error StoreErr.ErrKeyNotFound ∧
    (FS.OpenDir ⟨rootOf ['.']⟩ ['a']
      (FS.Rmdir ⟨rootOf ['.']⟩ ['a']
        { data := [("a/y".toList, [2]), ("a/x".toList, [1]), (['b'], [3])] }).2).1 =
      ([], Status.ENOENT) :=
  have h := Rmdir_then_OpenDir ⟨rootOf ['.']⟩ ['a'] ['x'] ['y'] [1] [2]
    { data := [("a/y".toList, [2]), ("a/x".toList, [1]), (['b'], [3])] } rfl (by decide)
    (by decide) (by decide)
  ⟨by decide, by decide, Prod.ext h.1 (h.2.1.trans (by decide)), h.2.2.2.2.2.1,
    congrArg Prod.fst h.2.2.2.2.2.2.2.2⟩

/-- C16 at root option `foo`, whose root is `foo/`: `Create(a)` and `Mkdir(b)`
hand the bare keys `a` and `b/` to the store, which do not begin with `foo/`;
`OpenDir("")` lists the name `foo`, which does not begin with `foo/` either. -/
theorem Create_key_is_not_rooted :
    rootOf "foo".toList = "foo/".toList ∧
    (FS.Create ⟨rootOf "foo".toList⟩ ['a'] {}).2.data = [(['a'], [])] ∧
    (FS.Mkdir ⟨rootOf "foo".toList⟩ ['b'] {}).2.data = [("b/".toList, [])] ∧
    (rootOf "foo".toList).isPrefixOf ['a'] = false ∧
    (rootOf "foo".toList).isPrefixOf "b/".toList = false ∧
    openDirName ⟨rootOf "foo".toList⟩ [] = "foo".toList ∧
    (rootOf "foo".toList).isPrefixOf (openDirName ⟨rootOf "foo".toList⟩ []) = false := by
  decide

/-- C17, amended: the root kept by `NewKVFS` is `rootOf` of the configured
string; it always ends with `/`, and it starts with `/` exactly when the
configured string, with one leading `/` removed if it has one, is empty or
starts with `/`. -/
theorem rootOf_shape (r : GoString) :
    (∀ s fs, (NewKVFS r s).1 = some fs → fs.root = rootOf r) ∧
    HasSuffix (rootOf r) ['/'] = true ∧
    ((rootOf r).head? = some '/' ↔
      ((if r.head? = some '/' then r.tail else r) = [] ∨
       (if r.head? = some '/' then r.tail else r).head? = some '/')) := by
  refine ⟨?_, ?_, ?_⟩
  · intro s fs h
    unfold NewKVFS at h
    rcases hl : s.List (rootOf r) with ⟨res, s1⟩
    cases res with
    | error e => simp [hl] at h
    | ok kvs =>
      simp only [hl, Option.some.injEq] at h
      rw [← h]
  · unfold rootOf
    simp only []
    split_ifs with h1 h2 h2
    · exact HasSuffix_append_slash _
    · simpa using h2
    · exact HasSuffix_append_slash _
    · simpa using h2
  · cases r with
    | nil => decide
    | cons c t =>
      by_cases hc : c = '/'
      · subst hc
        cases t with
        | nil => decide
        | cons x u =>
          by_cases hs : HasSuffix (x :: u) ['/'] = true
          · simp [rootOf, hs]
          · simp [rootOf, hs]
      · by_cases hs : HasSuffix (c :: t) ['/'] = true
        · simp [rootOf, hs, hc]
        · simp [rootOf, hs, hc]

/-- C17 at the root options `foo` and `/foo`, whose root is `foo/`, and at the
empty option, whose root is `/`. -/
theorem rootOf_shape_witness :
    HasSuffix (rootOf "foo".toList) ['/'] = true ∧
    ¬ (rootOf "foo".toList).head? = some '/' ∧
    ¬ (rootOf "/foo".toList).head? = some '/' ∧
    (rootOf []).head? = some '/' :=
  ⟨(rootOf_shape "foo".toList).2.1,
   fun h => absurd ((rootOf_shape "foo".toList).2.2.mp h) (by decide),
   fun h => absurd ((rootOf_shape "/foo".toList).2.2.mp h) (by decide),
   (rootOf_shape []).2.2.mpr (by decide)⟩

/-- C17 as stated fails for the empty root option, for `/` and for `//x`: the
computed roots are `/`, `/` and `/x/`, each with a leading `/`. -/
theorem rootOf_keeps_leading_slash :
    rootOf [] = "/".toList ∧ rootOf "/".toList = "/".toList ∧
    rootOf "//x".toList = "/x/".toList ∧
    (NewKVFS [] { data := [("/x".toList, [])] }).1 = some { root := "/".toList } := by
  decide

/-- C18 at the empty file `f`: the handle's `GetAttr` returns OK and leaves
mode and size of a zeroed `out` as they are (mode 0), while `FS.GetAttr(f)`
reports a regular file (`S_IFREG|0644`) of size 0.  For a non-empty file both
report `S_IFREG|0644` and the length. -/
theorem file_GetAttr_empty_file_mode :
    (∃ a, file.GetAttr { kv := some { Key := ['f'], Value := [] } } {} ⟨5, 5000⟩ =
        some (a, Status.OK) ∧ a.Mode = 0 ∧ a.Size = 0) ∧
    (∃ a, (FS.GetAttr ⟨rootOf []⟩ ['f'] ⟨5, 5000⟩ { data := [(['f'], [])] }).1 =
        (some a, Status.OK) ∧ a.Mode = S_IFREG ||| 0o644 ∧ a.Size = 0) ∧
    (S_IFREG ||| 0o644 ≠ 0) ∧
    (∃ a, file.GetAttr { kv := some { Key := ['g'], Value := [7] } } {} ⟨5, 5000⟩ =
        some (a, Status.OK) ∧ a.Mode = S_IFREG ||| 0o644 ∧ a.Size = 1) ∧
    (∃ a, (FS.GetAttr ⟨rootOf []⟩ ['g'] ⟨5, 5000⟩ { data := [(['g'], [7])] }).1 =
        (some a, Status.OK) ∧ a.Mode = S_IFREG ||| 0o644 ∧ a.Size = 1) := by
  refine ⟨⟨_, rfl, by decide, by decide⟩, ⟨_, rfl, by decide, by decide⟩, by decide,
    ⟨_, rfl, by decide, by decide⟩, ⟨_, rfl, by decide, by decide⟩⟩

/-- C19: when `p` is present and no store call fails, `Rename(p, p)` returns
OK and afterwards `p` is absent: the value is put under `p` and then `p` is
deleted. -/
theorem Rename_onto_itself_loses_entry (fs : FS) (s : Store) (p : GoString) (v : List Byte)
    (hf : s.faults = []) (hp : s.data.lookup p = some v) :
    (fs.Rename p p s).1 = Status.OK ∧
    (fs.Rename p p s).2.data.lookup p = none ∧
    ((fs.Rename p p s).2.Get p).1 = Except.error StoreErr.ErrKeyNotFound := by
  obtain ⟨d, fl⟩ := s
  simp only at hf hp
  subst hf
  have hres : fs.Rename p p ⟨d, []⟩ = (Status.OK, ⟨eraseEntry p (insertEntry p v d), []⟩) := by
    simp only [FS.Rename, Get_of_lookup_some d p v hp, Put_of_no_fault,
      Delete_of_lookup_some _ p v (lookup_insertEntry_self d p v)]
  rw [hres]
  exact ⟨rfl, lookup_eraseEntry_self _ _,
    by rw [Get_of_lookup_none _ p (lookup_eraseEntry_self _ _)]⟩

/-- C19 at a store in which `p` holds two bytes. -/
theorem Rename_onto_itself_loses_entry_witness :
    (FS.Rename ⟨rootOf []⟩ ['p'] ['p'] { data := [(['p'], [1, 2])] }).1 = Status.OK ∧
    (FS.Rename ⟨rootOf []⟩ ['p'] ['p'] { data := [(['p'], [1, 2])] }).2.data.lookup ['p'] =
      none :=
  have h := Rename_onto_itself_loses_entry ⟨rootOf []⟩ { data := [(['p'], [1, 2])] } ['p']
    [1, 2] rfl (by decide)
  ⟨h.1, h.2.1⟩

/-- C20: `Rmdir(d)` hands the bare name `d` to DeleteTree.  After a successful
`Rmdir(d)` no key that has the string `d` as a prefix remains in the store,
whether or not it lies under `d/`, and every key that does not start with `d`
holds what it held before. -/
theorem Rmdir_deletes_by_string_prefix (fs : FS) (d : GoString) (s : Store)
    (hok : (fs.Rmdir d s).1 = Status.OK) :
    (∀ e ∈ (fs.Rmdir d s).2.data, ¬ d <+: e.1) ∧
    (∀ k, d <+: k → (fs.Rmdir d s).2.data.lookup k = none) ∧
    (∀ k, ¬ d <+: k → (fs.Rmdir d s).2.data.lookup k = s.data.lookup k) := by
  rw [Rmdir_ok_data fs d s hok]
  refine ⟨?_, ?_, ?_⟩
  · intro e he
    have h1 := (List.mem_filter.mp he).2
    intro h2
    rw [List.isPrefixOf_iff_prefix.mpr h2] at h1
    exact absurd h1 (by decide)
  · intro k hk
    have hp : d.isPrefixOf k = true := List.isPrefixOf_iff_prefix.mpr hk
    rw [lookup_filter_key (fun k => ! d.isPrefixOf k)]
    simp [hp]
  · intro k hk
    have hp : d.isPrefixOf k = false := by
      cases h : d.isPrefixOf k with
      | false => rfl
      | true => exact absurd (List.isPrefixOf_iff_prefix.mp h) hk
    rw [lookup_filter_key (fun k => ! d.isPrefixOf k)]
    simp [hp]

/-- C20 at `d = a` on a store holding `ab`, `a/x` and `b`: the keys `ab` and
`a/x` are gone and `b` is kept. -/
theorem Rmdir_deletes_by_string_prefix_witness :
    (FS.Rmdir ⟨rootOf []⟩ "a".toList
      { data := [("ab".toList, [1]), ("a/x".toList, [2]), ("b".toList, [3])] }).2.data.lookup
        "ab".toList = none ∧
    (FS.Rmdir ⟨rootOf []⟩ "a".toList
      { data := [("ab".toList, [1]), ("a/x".toList, [2]), ("b".toList, [3])] }).2.data.lookup
        "b".toList = some [3] :=
  have h := Rmdir_deletes_by_string_prefix ⟨rootOf []⟩ "a".toList
    { data := [("ab".toList, [1]), ("a/x".toList, [2]), ("b".toList, [3])] } (by decide)
  ⟨h.2.1 "ab".toList (by decide), (h.2.2 "b".toList (by decide)).trans (by decide)⟩

end Kvfs
